import Mathlib

/-!
Verification of the `ponderosa` enrichment core
(`src/ponderosa/enrichment/__init__.py`) against its natural-language
specification.

Python strings are modelled as `List Char` (Python indexes by code point);
Python slice/`str.rfind` index normalisation (negative indices wrap, then
clamp) is modelled explicitly.  JSON values are modelled by an inductive
`Json` type together with an executable parser for `json.loads`, and the
pydantic models `Insight` / `EnrichmentResult` are modelled by structures
plus executable validators replicating the field constraints in the source
(`relevance_score` bounded by `ge=0.0, le=1.0`, all fields of
`EnrichmentResult` optional with defaults).  The LLM client is modelled as
a function from call index to either a raised transport error or a raw
response string; the retry loop `Enricher._call_llm`, the orchestrator
`Enricher.enrich_transcript` and its helpers are state-passing functions
that additionally record the number of client calls and the sequence of
extractor/merger invocations.
-/

/-- Python `str` modelled as a list of code points. -/
abbrev Str := List Char

/-- Convert a Lean string literal to the `Str` model. -/
def str (s : String) : Str := s.toList

/-- Normalise a Python index for `slice`/`rfind`: a negative index counts
from the end, and the result is clamped into `[0, n]`. -/
def pyNormIdx (i : Int) (n : Nat) : Nat :=
  if i < 0 then ((n : Int) + i).toNat else min i.toNat n

/-- Python slice `s[a:b]`. -/
def pySlice (s : Str) (a b : Int) : Str :=
  (s.take (pyNormIdx b s.length)).drop (pyNormIdx a s.length)

/-- Does `sub` occur in `s` starting exactly at position `k`? -/
def matchesAt (s sub : Str) (k : Nat) : Bool :=
  decide ((s.drop k).take sub.length = sub)

/-- Search downward from position `k` to position `lo` for an occurrence of
`sub`; returns the highest matching position in `[lo, k]`, if any. -/
def rfindDown (s sub : Str) (lo : Nat) : Nat → Option Nat
  | 0 => if lo = 0 && matchesAt s sub 0 then some 0 else none
  | k + 1 =>
      if lo ≤ k + 1 && matchesAt s sub (k + 1) then some (k + 1)
      else rfindDown s sub lo k

/-- Python `s.rfind(sub, a, b)`: highest index `m` with
`norm a ≤ m` and `m + len sub ≤ norm b` at which `sub` occurs, else `-1`. -/
def pyRfind (s sub : Str) (a b : Int) : Int :=
  let a' := pyNormIdx a s.length
  let b' := pyNormIdx b s.length
  if sub.length ≤ b' then
    match rfindDown s sub a' (b' - sub.length) with
    | some m => (m : Int)
    | none => -1
  else -1

/-- Module constant `CHUNK_SIZE`. -/
def CHUNK_SIZE : Nat := 60000

/-- Module constant `CHUNK_OVERLAP`. -/
def CHUNK_OVERLAP : Nat := 2000

/-- Module constant `MAX_RETRIES`. -/
def MAX_RETRIES : Nat := 2

/-- One loop iteration of `_chunk_text`: the `end` finally used for the
chunk starting at `st` (boundary-shrunk when a sentence boundary is found
in the last 5000 characters of the window). -/
def chunkEnd (text : Str) (cs : Nat) (st : Int) : Int :=
  let end0 : Int := st + cs
  if end0 < text.length then
    let lo : Int := st + cs - 5000
    let b := pyRfind text (str (". ")) lo end0
    let b := if b = -1 then pyRfind text (str ("? ")) lo end0 else b
    let b := if b = -1 then pyRfind text (str ("! ")) lo end0 else b
    if b ≠ -1 then b + 1 else end0
  else end0

/-- The next loop value of `start` in `_chunk_text` (`start = end - overlap`). -/
def chunkStep (text : Str) (cs ov : Nat) (st : Int) : Int :=
  chunkEnd text cs st - ov

/-- The `while start < len(text)` loop of `_chunk_text`, recording the
`(start, end)` range of each appended chunk.  `fuel` bounds the number of
iterations (the Python loop has no such bound and need not terminate; see
the termination theorems below). -/
def chunkRanges : Nat → Str → Nat → Nat → Int → List (Int × Int)
  | 0, _, _, _, _ => []
  | fuel + 1, text, cs, ov, st =>
      if st < (text.length : Int) then
        (st, chunkEnd text cs st) ::
          chunkRanges fuel text cs ov (chunkStep text cs ov st)
      else []

/-- The character ranges of the chunks produced by `_chunk_text`
(including the `len(text) <= chunk_size` short-circuit). -/
def chunkRangesTop (text : Str) (cs ov : Nat) : List (Int × Int) :=
  if text.length ≤ cs then [((0 : Int), (text.length : Int))]
  else chunkRanges (text.length + 1) text cs ov 0

/-- `_chunk_text(text, chunk_size, overlap)`: split text into overlapping
chunks at sentence boundaries. -/
def _chunk_text (text : Str) (cs ov : Nat) : List Str :=
  if text.length ≤ cs then [text]
  else (chunkRanges (text.length + 1) text cs ov 0).map
    (fun r => pySlice text r.1 r.2)

/-- Characters removed by Python `str.strip()` (ASCII whitespace). -/
def isPySpace (c : Char) : Bool :=
  c = ' ' || c = '\t' || c = '\n' || c = '\r' || c = '\x0b' || c = '\x0c'

/-- Python `str.strip()`. -/
def pyStrip (s : Str) : Str :=
  ((s.dropWhile isPySpace).reverse.dropWhile isPySpace).reverse

/-- Python `text.split("\n", 1)[1]`: everything after the first newline. -/
def dropFirstLine (s : Str) : Str :=
  (s.dropWhile (fun c => c ≠ '\n')).drop 1

/-- Python `text.endswith(suf)`. -/
def pyEndsWith (s suf : Str) : Bool :=
  matchesAt s suf (s.length - suf.length)

/-- `_strip_code_fences(text)`: remove markdown code fences from an LLM
response. -/
def _strip_code_fences (text : Str) : Str :=
  if matchesAt text (str ("```")) 0 then
    let t := if text.contains '\n' then dropFirstLine text else text.drop 3
    if pyEndsWith t (str ("```")) then pyStrip (t.take (t.length - 3)) else t
  else text

/-- Modelled from the spec (§4.2 step 3 and §8 "Fence stripping
idempotence"): the fence stripping the specification describes — "a
response beginning with a fence marker has its first line and, if present,
trailing fence removed", with the inner content left byte-identical.
Used only to compare the specified behaviour with `_strip_code_fences`. -/
def stripFencesSpecModel (text : Str) : Str :=
  if matchesAt text (str ("```")) 0 then
    let t := dropFirstLine text
    if pyEndsWith t (str ("```")) then t.take (t.length - 3) else t
  else text

/-- A JSON number, kept in exact decimal form `mant / 10 ^ exp` (Python
floats are idealised as exact decimals here; every literal appearing in
the claims is exactly representable). -/
structure PyFloat where
  mant : Int
  exp : Nat
deriving DecidableEq

/-- The rational value of a decimal number. -/
def PyFloat.toRat (d : PyFloat) : Rat := (d.mant : Rat) / (10 : Rat) ^ d.exp

/-- JSON values as produced by Python `json.loads`. -/
inductive Json where
  | null
  | bool (b : Bool)
  | num (d : PyFloat)
  | str (s : Str)
  | arr (elems : List Json)
  | obj (fields : List (Str × Json))

/-- JSON whitespace accepted between tokens by Python `json.loads`. -/
def skipWs (s : Str) : Str :=
  s.dropWhile (fun c => c = ' ' || c = '\t' || c = '\n' || c = '\r')

/-- Hexadecimal digit value, for string escapes. -/
def hexVal (c : Char) : Option Nat :=
  if '0' ≤ c ∧ c ≤ '9' then some (c.toNat - 48)
  else if 'a' ≤ c ∧ c ≤ 'f' then some (c.toNat - 87)
  else if 'A' ≤ c ∧ c ≤ 'F' then some (c.toNat - 55)
  else none

/-- Parse the body of a JSON string (after the opening quote), returning
the decoded characters and the remaining input. -/
def parseStringBody : Nat → Str → Except String (Str × Str)
  | 0, _ => .error ("fuel exhausted")
  | fuel + 1, s =>
      match s with
      | [] => .error ("unterminated string")
      | '"' :: r => .ok ([], r)
      | '\\' :: e :: r =>
          let esc : Except String (Char × Str) :=
            match e, r with
            | '"', _ => .ok ('"', r)
            | '\\', _ => .ok ('\\', r)
            | '/', _ => .ok ('/', r)
            | 'n', _ => .ok ('\n', r)
            | 't', _ => .ok ('\t', r)
            | 'r', _ => .ok ('\r', r)
            | 'b', _ => .ok ('\x08', r)
            | 'f', _ => .ok ('\x0c', r)
            | 'u', h1 :: h2 :: h3 :: h4 :: r2 =>
                match hexVal h1, hexVal h2, hexVal h3, hexVal h4 with
                | some a, some b, some c, some d =>
                    .ok (Char.ofNat (((a * 16 + b) * 16 + c) * 16 + d), r2)
                | _, _, _, _ => .error ("invalid unicode escape")
            | _, _ => .error ("invalid escape")
          match esc with
          | .ok (c, r2) => do
              let (cs, rest) ← parseStringBody fuel r2
              .ok (c :: cs, rest)
          | .error m => .error m
      | c :: r => do
          let (cs, rest) ← parseStringBody fuel r
          .ok (c :: cs, rest)

/-- Digits to a natural number. -/
def digitsToNat (ds : Str) : Nat :=
  ds.foldl (fun n c => 10 * n + (c.toNat - 48)) 0

/-- Parse a JSON number literal, returning its exact decimal value. -/
def parseNumber (s : Str) : Except String (PyFloat × Str) :=
  let (neg, s1) := match s with
    | '-' :: r => (true, r)
    | _ => (false, s)
  let intds := s1.takeWhile Char.isDigit
  let s2 := s1.drop intds.length
  if intds.isEmpty then .error ("invalid number") else
  let fracRes : Except String (Str × Str) :=
    match s2 with
    | '.' :: r =>
        let ds := r.takeWhile Char.isDigit
        if ds.isEmpty then .error ("invalid number fraction")
        else .ok (ds, r.drop ds.length)
    | _ => .ok ([], s2)
  match fracRes with
  | .error m => .error m
  | .ok (fracds, s3) =>
    let expRes : Except String (Bool × Str × Str) :=
      match s3 with
      | 'e' :: r | 'E' :: r =>
          let (esign, r2) := match r with
            | '-' :: r3 => (true, r3)
            | '+' :: r3 => (false, r3)
            | _ => (false, r)
          let ds := r2.takeWhile Char.isDigit
          if ds.isEmpty then .error ("invalid number exponent")
          else .ok (esign, ds, r2.drop ds.length)
      | _ => .ok (false, [], s3)
    match expRes with
    | .error m => .error m
    | .ok (eneg, expds, s4) =>
      let f := fracds.length
      let mant : Int :=
        (digitsToNat intds : Int) * (10 : Int) ^ f + (digitsToNat fracds : Int)
      let mant : Int := if neg then -mant else mant
      let e := digitsToNat expds
      let d : PyFloat := if eneg then ⟨mant, f + e⟩ else ⟨mant * (10 : Int) ^ e, f⟩
      .ok (d, s4)

mutual

/-- Parse one JSON value from the input (leading whitespace allowed),
returning it and the remaining input.  Models Python `json.loads`'s
recursive-descent grammar. -/
def parseJson : Nat → Str → Except String (Json × Str)
  | 0, _ => .error ("fuel exhausted")
  | fuel + 1, input =>
      match skipWs input with
      | [] => .error ("expecting value")
      | 'n' :: 'u' :: 'l' :: 'l' :: r => .ok (.null, r)
      | 't' :: 'r' :: 'u' :: 'e' :: r => .ok (.bool true, r)
      | 'f' :: 'a' :: 'l' :: 's' :: 'e' :: r => .ok (.bool false, r)
      | '"' :: r => do
          let (cs, rest) ← parseStringBody (r.length + 1) r
          .ok (.str cs, rest)
      | '[' :: r =>
          (match skipWs r with
           | ']' :: r2 => .ok (.arr [], r2)
           | r2 => do
               let (x, r3) ← parseJson fuel r2
               let (xs, r4) ← parseArrRest fuel r3
               .ok (.arr (x :: xs), r4))
      | '{' :: r =>
          (match skipWs r with
           | '}' :: r2 => .ok (.obj [], r2)
           | '"' :: r2 => do
               let (k, r3) ← parseStringBody (r2.length + 1) r2
               match skipWs r3 with
               | ':' :: r4 => do
                   let (v, r5) ← parseJson fuel r4
                   let (kvs, r6) ← parseObjRest fuel r5
                   .ok (.obj ((k, v) :: kvs), r6)
               | _ => .error ("expecting colon")
           | _ => .error ("expecting property name"))
      | s => do
          let (q, rest) ← parseNumber s
          .ok (.num q, rest)

/-- Parse the rest of a JSON array after its first element. -/
def parseArrRest : Nat → Str → Except String (List Json × Str)
  | 0, _ => .error ("fuel exhausted")
  | fuel + 1, input =>
      match skipWs input with
      | ']' :: r => .ok ([], r)
      | ',' :: r => do
          let (x, r2) ← parseJson fuel r
          let (xs, r3) ← parseArrRest fuel r2
          .ok (x :: xs, r3)
      | _ => .error ("expecting comma or end of array")

/-- Parse the rest of a JSON object after its first key/value pair. -/
def parseObjRest : Nat → Str → Except String (List (Str × Json) × Str)
  | 0, _ => .error ("fuel exhausted")
  | fuel + 1, input =>
      match skipWs input with
      | '}' :: r => .ok ([], r)
      | ',' :: r =>
          (match skipWs r with
           | '"' :: r2 => do
               let (k, r3) ← parseStringBody (r2.length + 1) r2
               match skipWs r3 with
               | ':' :: r4 => do
                   let (v, r5) ← parseJson fuel r4
                   let (kvs, r6) ← parseObjRest fuel r5
                   .ok ((k, v) :: kvs, r6)
               | _ => .error ("expecting colon")
           | _ => .error ("expecting property name"))
      | _ => .error ("expecting comma or end of object")

end

/-- Python `json.loads(s)`: parse a complete JSON document. -/
def json_loads (s : Str) : Except String Json := do
  let (v, rest) ← parseJson (s.length + 1) s
  if (skipWs rest).isEmpty then .ok v else .error ("extra data")

/-- Pydantic model `Insight`: one extracted insight. -/
structure Insight where
  name : Str
  description : Str
  keywords : List Str
  relevance_score : PyFloat
deriving DecidableEq

/-- Pydantic model `EnrichmentResult`: structured enrichment output.
Every field has a default, exactly as in the source. -/
structure EnrichmentResult where
  episode_title : Str := []
  summary : Str := []
  themes : List Insight := []
  learnings : List Insight := []
  strategies : List Insight := []
deriving DecidableEq

/-- Last-wins lookup in a JSON object's fields (Python dicts built by
`json.loads` keep the last duplicate key). -/
def jLookup (fs : List (Str × Json)) (k : Str) : Option Json :=
  (fs.reverse.find? (fun p => p.1 == k)).map (fun p => p.2)

/-- Pydantic validation of a `str` field. -/
def asStr : Json → Except String Str
  | .str s => .ok s
  | _ => .error ("expected string")

/-- Pydantic validation of a `list[str]` field. -/
def asStrList : Json → Except String (List Str)
  | .arr xs => xs.mapM asStr
  | _ => .error ("expected list of strings")

/-- Pydantic validation of the `relevance_score` field:
`Field(default=0.5, ge=0.0, le=1.0)` — out-of-range numbers are rejected,
never clamped. -/
def asScore : Json → Except String PyFloat
  | .num d =>
      if 0 ≤ d.mant ∧ d.mant ≤ (10 : Int) ^ d.exp then .ok d
      else .error ("relevance_score out of range")
  | _ => .error ("expected number")

/-- Pydantic required field: present keys are validated by `f`, a missing
key is a validation error. -/
def reqField {α : Type} (f : Json → Except String α) (msg : String)
    (fs : List (Str × Json)) (k : Str) : Except String α :=
  match jLookup fs k with
  | some v => f v
  | none => .error msg

/-- Pydantic optional field: present keys are validated by `f`, a missing
key takes the declared default `d`. -/
def optField {α : Type} (f : Json → Except String α) (d : α)
    (fs : List (Str × Json)) (k : Str) : Except String α :=
  match jLookup fs k with
  | some v => f v
  | none => .ok d

/-- Pydantic construction `Insight(**d)`: `name` and `description` are
required strings, `keywords` defaults to `[]`, `relevance_score` defaults
to `0.5` and must lie in `[0, 1]`. -/
def validateInsight : Json → Except String Insight
  | .obj fs => do
      let name ← reqField asStr "name field required" fs (str ("name"))
      let description ← reqField asStr "description field required" fs (str ("description"))
      let keywords ← optField asStrList [] fs (str ("keywords"))
      let score ← optField asScore (⟨5, 1⟩ : PyFloat) fs (str ("relevance_score"))
      .ok ⟨name, description, keywords, score⟩
  | _ => .error ("expected Insight object")

/-- Pydantic validation of a `list[Insight]` field. -/
def asInsightList : Json → Except String (List Insight)
  | .arr xs => xs.mapM validateInsight
  | _ => .error ("expected list of Insight")

/-- Pydantic construction `EnrichmentResult(**parsed)`: the argument must
be a JSON object (`**` needs a mapping); every field is optional with a
default. -/
def validateEnrichmentResult : Json → Except String EnrichmentResult
  | .obj fs => do
      let episode_title ← optField asStr [] fs (str ("episode_title"))
      let summary ← optField asStr [] fs (str ("summary"))
      let themes ← optField asInsightList [] fs (str ("themes"))
      let learnings ← optField asInsightList [] fs (str ("learnings"))
      let strategies ← optField asInsightList [] fs (str ("strategies"))
      .ok ⟨episode_title, summary, themes, learnings, strategies⟩
  | _ => .error ("expected mapping")

/-- One attempt's response processing in `_call_llm`:
`raw = response...content.strip()`, `raw = _strip_code_fences(raw)`,
`parsed = json.loads(raw)`, `EnrichmentResult(**parsed)`. -/
def decodeResp (content : Str) : Except String EnrichmentResult := do
  let raw := _strip_code_fences (pyStrip content)
  let parsed ← json_loads raw
  validateEnrichmentResult parsed

/-- The generative model client: call index ↦ either a raised exception
(transport/timeout error, `Except.error`) or the raw response text. -/
abbrev ModelClient := Nat → Except String Str

/-- One extractor or merger invocation, as recorded by the run trace. -/
inductive LlmCall where
  | extractCall (text : Str)
  | mergeCall (results : List EnrichmentResult)
deriving DecidableEq

/-- Observable state of an enrichment run: how many raw model calls were
made, and which extractor/merger invocations happened, in order. -/
structure LlmState where
  modelCalls : Nat
  invocations : List LlmCall
deriving DecidableEq

/-- The state at the start of an enrichment run. -/
def initState : LlmState := ⟨0, []⟩

/-- How a call to `_call_llm` fails: an exception from the model client
propagates as `transport`; `retryExhausted` is the `RuntimeError` raised
after all attempts failed, carrying the last parse/validation error. -/
inductive CallErr where
  | transport (e : String)
  | retryExhausted (last : String)
deriving DecidableEq

/-- The `for attempt in range(1, MAX_RETRIES + 2)` loop of `_call_llm`:
`idx` is the index of the next model call, the `Nat` argument the number
of attempts remaining, the `Option String` the last recorded error.
The client call itself sits outside the `try`: an exception from it
returns immediately, while parse/validation failures consume attempts. -/
def callAttempts (client : ModelClient) : Nat → Nat → Option String →
    Except CallErr EnrichmentResult × Nat
  | idx, 0, lastErr => (.error (.retryExhausted (lastErr.getD "")), idx)
  | idx, n + 1, _ =>
      match client idx with
      | .error e => (.error (.transport e), idx + 1)
      | .ok content =>
          match decodeResp content with
          | .ok r => (.ok r, idx + 1)
          | .error e => callAttempts client (idx + 1) n (some e)

/-- `Enricher._call_llm`: call the LLM and parse the response, retrying on
validation errors up to `MAX_RETRIES` retries. -/
def _call_llm (client : ModelClient) (st : LlmState) :
    Except CallErr EnrichmentResult × LlmState :=
  let (r, idx) := callAttempts client st.modelCalls (MAX_RETRIES + 1) none
  (r, { st with modelCalls := idx })

/-- `Enricher._enrich_single`: enrich a single chunk of text (extractor
invocation). -/
def _enrich_single (client : ModelClient) (text : Str) (st : LlmState) :
    Except CallErr EnrichmentResult × LlmState :=
  _call_llm client { st with invocations := st.invocations ++ [.extractCall text] }

/-- `Enricher._merge_results`: merge chunk results via the LLM (merger
invocation). -/
def _merge_results (client : ModelClient) (results : List EnrichmentResult)
    (st : LlmState) : Except CallErr EnrichmentResult × LlmState :=
  _call_llm client { st with invocations := st.invocations ++ [.mergeCall results] }

/-- The per-chunk extraction loop of `enrich_transcript`: invoke the
extractor once per chunk, in order, stopping at the first failure. -/
def extractChunks (client : ModelClient) :
    List Str → LlmState → Except CallErr (List EnrichmentResult) × LlmState
  | [], st => (.ok [], st)
  | c :: cs, st =>
      match _enrich_single client c st with
      | (.ok r, st') =>
          (match extractChunks client cs st' with
           | (.ok rs, st'') => (.ok (r :: rs), st'')
           | (.error e, st'') => (.error e, st''))
      | (.error e, st') => (.error e, st')

/-- `data.get(key)` on the parsed transcript JSON. -/
def jGet (data : Json) (k : Str) : Option Json :=
  match data with
  | .obj fs => jLookup fs k
  | _ => none

/-- Transcript loading in `enrich_transcript`: prefer the top-level
`text` field; if absent or empty, join the segments' `text` fields with
single spaces. -/
def loadTranscriptText (data : Json) : Str :=
  let text : Str := match jGet data (str ("text")) with
    | some (.str s) => s
    | _ => []
  if text = [] then
    let segs : List Json := match jGet data (str ("segments")) with
      | some (.arr xs) => xs
      | _ => []
    List.intercalate [' ']
      (segs.map (fun seg => match jGet seg (str ("text")) with
        | some (.str t) => t
        | _ => []))
  else text

/-- `Enricher.enrich_transcript` on already-parsed transcript JSON:
load the text, chunk it with the default parameters, then either a single
extractor call (one chunk) or one extractor call per chunk followed by a
single merger call over the collected results. -/
def enrich_transcript (client : ModelClient) (data : Json) (st : LlmState) :
    Except CallErr EnrichmentResult × LlmState :=
  let text := loadTranscriptText data
  let chunks := _chunk_text text CHUNK_SIZE CHUNK_OVERLAP
  if chunks.length = 1 then _enrich_single client (chunks.headD []) st
  else
    match extractChunks client chunks st with
    | (.ok rs, st') => _merge_results client rs st'
    | (.error e, st') => (.error e, st')

namespace Lemmas

lemma callAttempts_succ (client : ModelClient) (idx n : Nat) (last : Option String) :
    callAttempts client idx (n + 1) last =
      match client idx with
      | .error e => (.error (.transport e), idx + 1)
      | .ok content =>
          match decodeResp content with
          | .ok r => (.ok r, idx + 1)
          | .error e => callAttempts client (idx + 1) n (some e) := rfl

lemma callAttempts_fail (client : ModelClient) (errOf : Nat → String)
    (h : ∀ i, ∃ raw, client i = .ok raw ∧ decodeResp raw = .error (errOf i)) :
    ∀ (n idx : Nat) (last : Option String),
      callAttempts client idx (n + 1) last =
        (.error (.retryExhausted (errOf (idx + n))), idx + (n + 1)) := by
  intro n
  induction n with
  | zero =>
      intro idx last
      obtain ⟨raw, hc, hd⟩ := h idx
      simp [callAttempts, hc, hd]
  | succ n ih =>
      intro idx last
      obtain ⟨raw, hc, hd⟩ := h idx
      rw [callAttempts_succ]
      simp only [hc, hd]
      rw [ih]
      have e1 : idx + 1 + n = idx + (n + 1) := by omega
      have e2 : idx + 1 + (n + 1) = idx + (n + 1 + 1) := by omega
      rw [e1, e2]

lemma callAttempts_transport (client : ModelClient) (idx : Nat) (n : Nat)
    (last : Option String) (e : String) (h : client idx = .error e) :
    callAttempts client idx (n + 1) last = (.error (.transport e), idx + 1) := by
  simp [callAttempts, h]

end Lemmas

/-- `C1` (corrected).  Counterexample to the original claim: a model client
that raises a transport error on its first call and would return a valid
response on its second.  If the exception were "consumed as one failed
attempt by the same retry budget", the call would retry and succeed; the
code instead propagates the transport error immediately, after exactly one
model call, with two retries unused. -/
theorem c1_transport_not_retried_cex :
    _call_llm (fun i => if i = 0 then .error "timeout" else .ok ['{', '}']) initState
      = (.error (.transport "timeout"), ⟨1, []⟩) ∧
    decodeResp ['{', '}'] = .ok {} ∧ MAX_RETRIES = 2 := by
  refine ⟨rfl, rfl, rfl⟩

/-- `C1` (amended): an exception raised by the generative model client
propagates immediately out of the call — for extraction and merge alike —
after exactly one model call; it is not consumed by the retry budget
(only parse/validation failures are retried). -/
theorem c1_transport_propagates (client : ModelClient) (st : LlmState) (e : String)
    (h : client st.modelCalls = .error e) :
    _call_llm client st =
      (.error (.transport e), { st with modelCalls := st.modelCalls + 1 }) ∧
    (∀ text : Str, _enrich_single client text st =
      (.error (.transport e), ⟨st.modelCalls + 1, st.invocations ++ [.extractCall text]⟩)) ∧
    (∀ results : List EnrichmentResult, _merge_results client results st =
      (.error (.transport e), ⟨st.modelCalls + 1, st.invocations ++ [.mergeCall results]⟩)) := by
  have base : ∀ st' : LlmState, _call_llm client st' =
      (if st'.modelCalls = st.modelCalls then
        (.error (.transport e), { st' with modelCalls := st'.modelCalls + 1 })
      else _call_llm client st') := by
    intro st'
    by_cases hc : st'.modelCalls = st.modelCalls
    · rw [if_pos hc]
      unfold _call_llm
      rw [show MAX_RETRIES + 1 = 2 + 1 from rfl,
        Lemmas.callAttempts_transport client st'.modelCalls 2 none e (hc ▸ h)]
    · rw [if_neg hc]
  refine ⟨?_, ?_, ?_⟩
  · have := base st
    simpa using this
  · intro text
    unfold _enrich_single
    have := base { st with invocations := st.invocations ++ [.extractCall text] }
    simpa using this
  · intro results
    unfold _merge_results
    have := base { st with invocations := st.invocations ++ [.mergeCall results] }
    simpa using this

/-- Witness for `C1`'s amended theorem at a concrete client and state. -/
theorem c1_transport_propagates_witness :
    _call_llm (fun _ => .error "boom") initState = (.error (.transport "boom"), ⟨1, []⟩) := by
  have h := (c1_transport_propagates (fun _ => .error "boom") initState "boom" rfl).1
  simpa using h

/-- `C2` (confirmed): against a model client whose every response fails to
parse or validate, the call primitive shared by extraction and merge makes
exactly `MAX_RETRIES + 1` model calls (3 by default), no more and no
fewer, and fails with the retry-exhausted error carrying the last
parse/validation error. -/
theorem c2_retry_exhaustion (client : ModelClient) (errOf : Nat → String)
    (h : ∀ i, ∃ raw, client i = .ok raw ∧ decodeResp raw = .error (errOf i))
    (st : LlmState) :
    _call_llm client st =
      (.error (.retryExhausted (errOf (st.modelCalls + MAX_RETRIES))),
        { st with modelCalls := st.modelCalls + (MAX_RETRIES + 1) }) ∧
    (∀ text : Str, _enrich_single client text st =
      (.error (.retryExhausted (errOf (st.modelCalls + MAX_RETRIES))),
        ⟨st.modelCalls + (MAX_RETRIES + 1), st.invocations ++ [.extractCall text]⟩)) ∧
    (∀ results : List EnrichmentResult, _merge_results client results st =
      (.error (.retryExhausted (errOf (st.modelCalls + MAX_RETRIES))),
        ⟨st.modelCalls + (MAX_RETRIES + 1), st.invocations ++ [.mergeCall results]⟩)) := by
  have base : ∀ st' : LlmState, st'.modelCalls = st.modelCalls → _call_llm client st' =
      (.error (.retryExhausted (errOf (st.modelCalls + MAX_RETRIES))),
        { st' with modelCalls := st.modelCalls + (MAX_RETRIES + 1) }) := by
    intro st' hc
    unfold _call_llm
    rw [show MAX_RETRIES + 1 = 2 + 1 from rfl, Lemmas.callAttempts_fail client errOf h 2 _ none]
    rw [hc]
    rfl
  refine ⟨?_, ?_, ?_⟩
  · have := base st rfl
    simpa using this
  · intro text
    unfold _enrich_single
    exact base { st with invocations := st.invocations ++ [.extractCall text] } rfl
  · intro results
    unfold _merge_results
    exact base { st with invocations := st.invocations ++ [.mergeCall results] } rfl

/-- Witness for `C2` at a concrete stub client that always returns
non-JSON text. -/
theorem c2_retry_exhaustion_witness :
    _call_llm (fun _ => .ok (str ("not json"))) initState =
      (.error (.retryExhausted "invalid number"), ⟨3, []⟩) := by
  have h := (c2_retry_exhaustion (fun _ => .ok (str ("not json")))
    (fun _ => "invalid number") (fun _ => ⟨str ("not json"), rfl, rfl⟩) initState).1
  simpa using h

/-- `C6` (corrected).  Counterexample to the original claim: the empty
JSON object `\x7b\x7d` — which lacks every top-level key of the schema —
passes validation and yields the fully-defaulted result, and an attempt
whose response is the empty object succeeds on the first model call; it is
not treated as malformed. -/
theorem c6_empty_object_accepted_cex :
    validateEnrichmentResult (Json.obj []) = .ok {} ∧
    decodeResp ['{', '}'] = .ok {} ∧
    _call_llm (fun _ => .ok ['{', '}']) initState = (.ok {}, ⟨1, []⟩) := by
  refine ⟨rfl, rfl, rfl⟩

/-- `C6` (amended): every field of `EnrichmentResult` is optional with a
default, so a JSON object with missing keys — in particular the empty
object — validates successfully with defaulted values; validation fails
(and the attempt is treated as malformed, consuming the retry budget)
only when the parsed value is not an object or when a present key has the
wrong shape, e.g. `themes` not a list of Insight-shaped objects. -/
theorem c6_schema_validation :
    validateEnrichmentResult (Json.obj []) = .ok {} ∧
    validateEnrichmentResult (Json.num ⟨3, 0⟩) = .error "expected mapping" ∧
    validateEnrichmentResult (Json.obj [(str ("themes"), Json.num ⟨3, 0⟩)]) =
      .error "expected list of Insight" ∧
    validateEnrichmentResult (Json.obj [(str ("themes"), Json.arr [Json.obj []])]) =
      .error "name field required" ∧
    _call_llm (fun _ => .ok (str ("3"))) initState =
      (.error (.retryExhausted "expected mapping"), ⟨3, []⟩) := by
  refine ⟨rfl, rfl, rfl, rfl, rfl⟩

/-- `C7` (corrected).  Counterexample to the original claim: a transcript
whose JSON object has neither a `text` field nor usable segments does not
fail with a transcript-load error — `enrich_transcript` proceeds, makes
exactly one (extraction) model call on the empty chunk, and returns that
call's result. -/
theorem c7_empty_transcript_cex :
    loadTranscriptText (Json.obj []) = [] ∧
    enrich_transcript (fun _ => .ok ['{', '}']) (Json.obj []) initState =
      (.ok {}, ⟨1, [.extractCall []]⟩) := by
  refine ⟨rfl, rfl⟩

/-- `C7` (amended): a transcript whose loaded text is empty (missing or
empty `text`, no usable segment fallback) is not rejected: the empty
string becomes the single chunk `[""]` and `enrich_transcript` behaves as
a single extractor invocation on the empty string — one model call, no
load error. -/
theorem c7_empty_text_proceeds (client : ModelClient) (data : Json) (st : LlmState)
    (h : loadTranscriptText data = []) :
    enrich_transcript client data st = _enrich_single client [] st := by
  unfold enrich_transcript
  rw [h]
  rfl

/-- Witness for `C7`'s amended theorem at a concrete empty transcript. -/
theorem c7_empty_text_proceeds_witness :
    enrich_transcript (fun _ => .ok []) (Json.obj [(str ("segments"), Json.arr [])])
      initState = _enrich_single (fun _ => .ok []) [] initState :=
  c7_empty_text_proceeds (fun _ => .ok []) (Json.obj [(str ("segments"), Json.arr [])])
    initState rfl

namespace Lemmas

lemma dropFirstLine_concat (pre rest : Str) (h : '\n' ∉ pre) :
    dropFirstLine (pre ++ '\n' :: rest) = rest := by
  induction pre with
  | nil => simp [dropFirstLine, List.dropWhile_cons]
  | cons a l ih =>
      have ha : a ≠ '\n' := by
        intro e
        exact h (by simp [e])
      have hl : '\n' ∉ l := by
        intro e
        exact h (List.mem_cons_of_mem _ e)
      have := ih hl
      simpa [dropFirstLine, List.dropWhile_cons, ha] using this

end Lemmas

/-- The example fenced response `"```json\n\x7b\x7d\n```"` (a fenced empty
JSON object).  Its inner content — between the first line and the trailing
fence — is `"\x7b\x7d\n"`. -/
def fencedEx : Str := str ("```json\n") ++ ['{', '}'] ++ str ("\n```")

/-- `C8` (corrected).  Counterexample to the original claim: on a fenced
response the code does not leave the inner content byte-identical — after
removing the first line and the trailing fence it additionally strips
surrounding whitespace (`.strip()`), so the inner content's trailing
newline is lost. -/
theorem c8_fence_strip_cex :
    stripFencesSpecModel fencedEx = ['{', '}', '\n'] ∧
    _strip_code_fences fencedEx = ['{', '}'] ∧
    _strip_code_fences fencedEx ≠ stripFencesSpecModel fencedEx := by
  refine ⟨rfl, rfl, by decide⟩

/-- `C8` (amended): a string not beginning with a fence marker is returned
unchanged; a fenced string with a trailing fence has its first line and the
trailing fence removed and the remaining inner content whitespace-stripped
(Python `str.strip()`) — byte-identical only up to surrounding whitespace. -/
theorem c8_fence_stripping :
    (∀ s : Str, matchesAt s (str ("```")) 0 = false → _strip_code_fences s = s) ∧
    (∀ lang inner : Str, '\n' ∉ lang →
      _strip_code_fences (str ("```") ++ lang ++ '\n' :: (inner ++ str ("```"))) =
        pyStrip inner) := by
  constructor
  · intro s hs
    simp [_strip_code_fences, hs]
  · intro lang inner h
    have hstr3 : str ("```") = ['`', '`', '`'] := rfl
    have hpre : '\n' ∉ str ("```") ++ lang := by
      intro hm
      rcases List.mem_append.mp hm with h1 | h2
      · rw [hstr3] at h1
        simp at h1
      · exact h h2
    have hdrop : dropFirstLine (str ("```") ++ lang ++ '\n' :: (inner ++ str ("```")))
        = inner ++ str ("```") := by
      exact Lemmas.dropFirstLine_concat (str ("```") ++ lang) (inner ++ str ("```")) hpre
    have hstart : matchesAt (str ("```") ++ lang ++ '\n' :: (inner ++ str ("```")))
        (str ("```")) 0 = true := rfl
    have hmem : '\n' ∈ str ("```") ++ lang ++ '\n' :: (inner ++ str ("```")) := by
      exact List.mem_append.mpr (Or.inr (List.mem_cons_self _ _))
    have hcont : (str ("```") ++ lang ++ '\n' :: (inner ++ str ("```"))).contains '\n'
        = true := by
      simp [List.contains, List.elem_eq_mem, hmem]
    have hend : pyEndsWith (inner ++ str ("```")) (str ("```")) = true := by
      unfold pyEndsWith matchesAt
      rw [hstr3]
      have hlen : (inner ++ ['`', '`', '`']).length - ['`', '`', '`'].length
          = inner.length := by simp
      rw [hlen, List.drop_left]
      rfl
    have htake : (inner ++ str ("```")).take ((inner ++ str ("```")).length - 3)
        = inner := by
      rw [hstr3]
      refine List.take_left' ?_
      simp
    unfold _strip_code_fences
    rw [hstart, hcont]
    simp only [if_true]
    rw [hdrop, hend]
    simp only [if_true]
    rw [htake]

/-- Witness for `C8`'s amended theorem: an unfenced string is unchanged,
and a concrete fenced string strips to the whitespace-stripped inner
content. -/
theorem c8_fence_stripping_witness :
    _strip_code_fences (str ("no fences here")) = str ("no fences here") ∧
    _strip_code_fences (str ("```") ++ str ("json") ++ '\n' :: (str ("ok") ++ str ("```")))
      = pyStrip (str ("ok")) :=
  ⟨c8_fence_stripping.1 (str ("no fences here")) (by decide),
   c8_fence_stripping.2 (str ("json")) (str ("ok")) (by decide)⟩

namespace Lemmas

lemma except_bind_ok {ε α β : Type} {x : Except ε α} {f : α → Except ε β} {b : β}
    (h : x >>= f = .ok b) : ∃ a, x = .ok a ∧ f a = .ok b := by
  cases x with
  | error e => simp [Bind.bind, Except.bind] at h
  | ok a => exact ⟨a, rfl, by simpa [Bind.bind, Except.bind] using h⟩

lemma pyFloat_bounds_iff (d : PyFloat) :
    (0 ≤ d.mant ∧ d.mant ≤ (10 : Int) ^ d.exp) ↔ (0 ≤ d.toRat ∧ d.toRat ≤ 1) := by
  unfold PyFloat.toRat
  have hp : (0 : Rat) < (10 : Rat) ^ d.exp := by positivity
  rw [div_le_one hp, le_div_iff₀ hp, zero_mul]
  constructor <;> intro h <;>
    exact ⟨by exact_mod_cast h.1, by exact_mod_cast h.2⟩

lemma asScore_ok {v : Json} {q : PyFloat} (h : asScore v = .ok q) :
    0 ≤ q.toRat ∧ q.toRat ≤ 1 := by
  cases v with
  | num d =>
      have he : asScore (Json.num d) =
          (if 0 ≤ d.mant ∧ d.mant ≤ (10 : Int) ^ d.exp then Except.ok d
           else Except.error "relevance_score out of range") := rfl
      rw [he] at h
      by_cases hq : 0 ≤ d.mant ∧ d.mant ≤ (10 : Int) ^ d.exp
      · rw [if_pos hq] at h
        simp only [Except.ok.injEq] at h
        exact h ▸ (pyFloat_bounds_iff d).mp hq
      · rw [if_neg hq] at h
        simp at h
  | null => simp [asScore] at h
  | bool b => simp [asScore] at h
  | str s => simp [asScore] at h
  | arr xs => simp [asScore] at h
  | obj fs => simp [asScore] at h

lemma optScore_ok {fs : List (Str × Json)} {k : Str} {q : PyFloat}
    (h : optField asScore (⟨5, 1⟩ : PyFloat) fs k = .ok q) :
    0 ≤ q.toRat ∧ q.toRat ≤ 1 := by
  rcases hv : jLookup fs k with _ | v
  · simp only [optField, hv, Except.ok.injEq] at h
    subst h
    exact (pyFloat_bounds_iff ⟨5, 1⟩).mp (by decide)
  · simp only [optField, hv] at h
    exact asScore_ok h

lemma validateInsight_ok {j : Json} {i : Insight} (h : validateInsight j = .ok i) :
    0 ≤ i.relevance_score.toRat ∧ i.relevance_score.toRat ≤ 1 := by
  cases j with
  | obj fs =>
      simp only [validateInsight] at h
      obtain ⟨name, hn, h⟩ := except_bind_ok h
      obtain ⟨description, hd, h⟩ := except_bind_ok h
      obtain ⟨keywords, hk, h⟩ := except_bind_ok h
      obtain ⟨score, hs, h⟩ := except_bind_ok h
      have hi : i = ⟨name, description, keywords, score⟩ := by
        simpa [Pure.pure, Except.pure, Except.ok.injEq, eq_comm] using h
      subst hi
      exact optScore_ok hs
  | null => simp [validateInsight] at h
  | bool b => simp [validateInsight] at h
  | num q => simp [validateInsight] at h
  | str s => simp [validateInsight] at h
  | arr xs => simp [validateInsight] at h

lemma mapM_validateInsight_ok : ∀ {xs : List Json} {l : List Insight},
    xs.mapM validateInsight = .ok l →
    ∀ i ∈ l, 0 ≤ i.relevance_score.toRat ∧ i.relevance_score.toRat ≤ 1 := by
  intro xs
  induction xs with
  | nil =>
      intro l h i hi
      simp only [List.mapM_nil] at h
      have : l = [] := by simpa [Pure.pure, Except.pure, eq_comm] using h
      subst this
      simp at hi
  | cons x xs ih =>
      intro l h i hi
      rw [List.mapM_cons] at h
      obtain ⟨a, ha, h⟩ := except_bind_ok h
      obtain ⟨as, has, h⟩ := except_bind_ok h
      have : l = a :: as := by simpa [Pure.pure, Except.pure, eq_comm] using h
      subst this
      rcases List.mem_cons.mp hi with hi | hi
      · exact hi ▸ validateInsight_ok ha
      · exact ih has i hi

lemma asInsightList_ok {v : Json} {l : List Insight} (h : asInsightList v = .ok l) :
    ∀ i ∈ l, 0 ≤ i.relevance_score.toRat ∧ i.relevance_score.toRat ≤ 1 := by
  cases v with
  | arr xs =>
      unfold asInsightList at h
      exact mapM_validateInsight_ok h
  | null => simp [asInsightList] at h
  | bool b => simp [asInsightList] at h
  | num q => simp [asInsightList] at h
  | str s => simp [asInsightList] at h
  | obj fs => simp [asInsightList] at h

lemma insightField_ok {fs : List (Str × Json)} {k : Str} {l : List Insight}
    (h : optField asInsightList [] fs k = .ok l) :
    ∀ i ∈ l, 0 ≤ i.relevance_score.toRat ∧ i.relevance_score.toRat ≤ 1 := by
  rcases hv : jLookup fs k with _ | v
  · simp only [optField, hv, Except.ok.injEq] at h
    subst h
    simp
  · simp only [optField, hv] at h
    exact asInsightList_ok h

end Lemmas

/-- The stub response whose `relevance_score` is `1.5`:
`\x7b"themes":[\x7b"name":"a","description":"b","relevance_score":1.5\x7d]\x7d`. -/
def respScore15 : Str :=
  ['{'] ++ str ("\"themes\":[") ++ ['{'] ++
    str ("\"name\":\"a\",\"description\":\"b\",\"relevance_score\":1.5") ++
    ['}'] ++ str ("]") ++ ['}']

/-- `C5` (confirmed): every successfully validated `EnrichmentResult` has
all its insights' `relevance_score` in `[0, 1]`; and a model response with
a score of `1.5` fails validation — it is not accepted or clamped — so the
attempt takes the retry path (here: all three attempts fail and the call
ends with the retry-exhausted error carrying the range error). -/
theorem c5_score_invariant :
    (∀ (j : Json) (r : EnrichmentResult), validateEnrichmentResult j = .ok r →
      ∀ i ∈ r.themes ++ r.learnings ++ r.strategies,
        0 ≤ i.relevance_score.toRat ∧ i.relevance_score.toRat ≤ 1) ∧
    decodeResp respScore15 = .error "relevance_score out of range" ∧
    _call_llm (fun _ => .ok respScore15) initState =
      (.error (.retryExhausted "relevance_score out of range"), ⟨3, []⟩) := by
  refine ⟨?_, rfl, rfl⟩
  intro j r h i hi
  cases j with
  | obj fs =>
      simp only [validateEnrichmentResult] at h
      obtain ⟨episode_title, ht, h⟩ := Lemmas.except_bind_ok h
      obtain ⟨summary, hsu, h⟩ := Lemmas.except_bind_ok h
      obtain ⟨themes, hth, h⟩ := Lemmas.except_bind_ok h
      obtain ⟨learnings, hle, h⟩ := Lemmas.except_bind_ok h
      obtain ⟨strategies, hst, h⟩ := Lemmas.except_bind_ok h
      have hr : r = ⟨episode_title, summary, themes, learnings, strategies⟩ := by
        simpa [Pure.pure, Except.pure, Except.ok.injEq, eq_comm] using h
      subst hr
      simp only [List.append_assoc, List.mem_append] at hi
      rcases hi with hi | hi | hi
      · exact Lemmas.insightField_ok hth i hi
      · exact Lemmas.insightField_ok hle i hi
      · exact Lemmas.insightField_ok hst i hi
  | null => simp [validateEnrichmentResult] at h
  | bool b => simp [validateEnrichmentResult] at h
  | num q => simp [validateEnrichmentResult] at h
  | str s => simp [validateEnrichmentResult] at h
  | arr xs => simp [validateEnrichmentResult] at h

/-- Concrete JSON input for the `C5` witness: one theme with score `0.9`. -/
def c5Json : Json :=
  Json.obj [(str ("themes"), Json.arr [Json.obj
    [(str ("name"), Json.str (str ("a"))),
     (str ("description"), Json.str (str ("b"))),
     (str ("relevance_score"), Json.num ⟨9, 1⟩)]])]

/-- The validated result of `c5Json`. -/
def c5Result : EnrichmentResult :=
  ⟨[], [], [⟨str ("a"), str ("b"), [], ⟨9, 1⟩⟩], [], []⟩

/-- Witness for `C5` at a concrete validated result. -/
theorem c5_score_invariant_witness :
    0 ≤ (⟨str ("a"), str ("b"), [], ⟨9, 1⟩⟩ : Insight).relevance_score.toRat ∧
    (⟨str ("a"), str ("b"), [], ⟨9, 1⟩⟩ : Insight).relevance_score.toRat ≤ 1 :=
  c5_score_invariant.1 c5Json c5Result (by rfl) _ (by decide)

namespace Lemmas

lemma rfindDown_some {s sub : Str} {lo : Nat} :
    ∀ {k m : Nat}, rfindDown s sub lo k = some m →
      lo ≤ m ∧ m ≤ k ∧ matchesAt s sub m = true := by
  intro k
  induction k with
  | zero =>
      intro m h
      unfold rfindDown at h
      by_cases hc : lo = 0 && matchesAt s sub 0
      · rw [if_pos hc] at h
        simp only [Option.some.injEq] at h
        subst h
        rcases Bool.and_eq_true .. |>.mp hc with ⟨h1, h2⟩
        have h1' : lo = 0 := by simpa using h1
        exact ⟨Nat.le_of_eq h1', Nat.le_refl 0, h2⟩
      · rw [if_neg hc] at h
        simp at h
  | succ k ih =>
      intro m h
      unfold rfindDown at h
      by_cases hc : lo ≤ k + 1 && matchesAt s sub (k + 1)
      · rw [if_pos hc] at h
        simp only [Option.some.injEq] at h
        subst h
        rcases Bool.and_eq_true .. |>.mp hc with ⟨h1, h2⟩
        exact ⟨by simpa using h1, Nat.le_refl _, h2⟩
      · rw [if_neg hc] at h
        obtain ⟨h1, h2, h3⟩ := ih h
        exact ⟨h1, Nat.le_succ_of_le h2, h3⟩

lemma rfindDown_eq_none {s sub : Str} {lo : Nat} :
    ∀ {k : Nat}, (∀ j, lo ≤ j → j ≤ k → matchesAt s sub j = false) →
      rfindDown s sub lo k = none := by
  intro k
  induction k with
  | zero =>
      intro h
      unfold rfindDown
      rcases Nat.eq_zero_or_pos lo with h0 | h0
      · subst h0
        simp [h 0 (Nat.le_refl 0) (Nat.le_refl 0)]
      · simp [Nat.pos_iff_ne_zero.mp h0]
  | succ k ih =>
      intro h
      unfold rfindDown
      by_cases hlo : lo ≤ k + 1
      · simp only [h (k + 1) hlo (Nat.le_refl _), Bool.and_false, Bool.false_eq_true,
          if_false]
        exact ih (fun j hj hjk => h j hj (Nat.le_succ_of_le hjk))
      · have hd : decide (lo ≤ k + 1) = false := by simp [hlo]
        simp only [hd, Bool.false_and, Bool.false_eq_true, if_false]
        exact ih (fun j hj hjk => h j hj (Nat.le_succ_of_le hjk))

/-- What a non-`-1` result of `pyRfind` means. -/
lemma pyRfind_spec (s sub : Str) (a b : Int) :
    pyRfind s sub a b = -1 ∨
    ∃ m : Nat, pyRfind s sub a b = (m : Int) ∧
      pyNormIdx a s.length ≤ m ∧ m + sub.length ≤ pyNormIdx b s.length ∧
      matchesAt s sub m = true := by
  unfold pyRfind
  by_cases hlen : sub.length ≤ pyNormIdx b s.length
  · rw [if_pos hlen]
    rcases hr : rfindDown s sub (pyNormIdx a s.length)
        (pyNormIdx b s.length - sub.length) with _ | m
    · exact Or.inl rfl
    · obtain ⟨h1, h2, h3⟩ := rfindDown_some hr
      exact Or.inr ⟨m, rfl, h1, by omega, h3⟩
  · rw [if_neg hlen]
    exact Or.inl rfl

end Lemmas

namespace Lemmas

/-- Case analysis on one chunk end: either the raw `start + chunk_size`
edge was used (window reaching past the end of the text, or no boundary
found in the lookback range), or a sentence boundary was found. -/
lemma chunkEnd_cases (text : Str) (cs : Nat) (st : Int) :
    (chunkEnd text cs st = st + cs ∧
      ((text.length : Int) ≤ st + cs ∨
        (pyRfind text (str (". ")) (st + cs - 5000) (st + cs) = -1 ∧
         pyRfind text (str ("? ")) (st + cs - 5000) (st + cs) = -1 ∧
         pyRfind text (str ("! ")) (st + cs - 5000) (st + cs) = -1))) ∨
    (∃ m : Nat, chunkEnd text cs st = (m : Int) + 1 ∧ st + cs < (text.length : Int) ∧
      pyNormIdx (st + cs - 5000) text.length ≤ m ∧
      m + 2 ≤ pyNormIdx (st + cs) text.length ∧
      (matchesAt text (str (". ")) m = true ∨ matchesAt text (str ("? ")) m = true ∨
       matchesAt text (str ("! ")) m = true)) := by
  simp only [chunkEnd]
  by_cases hend : st + (cs : Int) < (text.length : Int)
  · rw [if_pos hend]
    by_cases h1 : pyRfind text (str (". ")) (st + cs - 5000) (st + cs) = -1
    · by_cases h2 : pyRfind text (str ("? ")) (st + cs - 5000) (st + cs) = -1
      · by_cases h3 : pyRfind text (str ("! ")) (st + cs - 5000) (st + cs) = -1
        · rw [if_pos h1, if_pos h2,
            if_neg (show ¬ (pyRfind text (str ("! ")) (st + cs - 5000) (st + cs) ≠ -1)
              from fun hn => hn h3)]
          exact Or.inl ⟨rfl, Or.inr ⟨h1, h2, h3⟩⟩
        · rcases pyRfind_spec text (str ("! ")) (st + cs - 5000) (st + cs) with hc | hc
          · exact absurd hc h3
          · obtain ⟨m, hm, hma, hmb, hmm⟩ := hc
            refine Or.inr ⟨m, ?_, hend, hma, by simpa using hmb, Or.inr (Or.inr hmm)⟩
            rw [if_pos h1, if_pos h2, hm]
            rw [if_pos (by omega : ((m : Int)) ≠ -1)]
      · rcases pyRfind_spec text (str ("? ")) (st + cs - 5000) (st + cs) with hc | hc
        · exact absurd hc h2
        · obtain ⟨m, hm, hma, hmb, hmm⟩ := hc
          refine Or.inr ⟨m, ?_, hend, hma, by simpa using hmb, Or.inr (Or.inl hmm)⟩
          rw [if_pos h1, if_neg h2, hm]
          rw [if_pos (by omega : ((m : Int)) ≠ -1)]
    · rcases pyRfind_spec text (str (". ")) (st + cs - 5000) (st + cs) with hc | hc
      · exact absurd hc h1
      · obtain ⟨m, hm, hma, hmb, hmm⟩ := hc
        refine Or.inr ⟨m, ?_, hend, hma, by simpa using hmb, Or.inl hmm⟩
        rw [if_neg h1, if_neg h1, hm]
        rw [if_pos (by omega : ((m : Int)) ≠ -1)]
  · rw [if_neg hend]
    exact Or.inl ⟨rfl, Or.inl (by omega)⟩

/-- With `chunk_size ≥ overlap + 5000` (satisfied by the defaults), each
iteration strictly advances `start`, and keeps it non-negative. -/
lemma chunkStep_advance {text : Str} {cs ov : Nat} (h : 5000 + ov ≤ cs)
    {st : Int} (h0 : 0 ≤ st) (hlt : st < (text.length : Int)) :
    st + 1 ≤ chunkStep text cs ov st ∧ 0 ≤ chunkStep text cs ov st := by
  unfold chunkStep
  rcases chunkEnd_cases text cs st with ⟨he, _⟩ | ⟨m, he, hend, hma, _, _⟩
  · rw [he]
    omega
  · rw [he]
    have hnorm : (pyNormIdx (st + cs - 5000) text.length : Int) = st + cs - 5000 := by
      unfold pyNormIdx
      rw [if_neg (by omega : ¬ (st + (cs : Int) - 5000 < 0))]
      have h1 : (st + (cs : Int) - 5000).toNat ≤ text.length := by omega
      rw [Nat.min_eq_left h1]
      omega
    omega

lemma chunkRanges_stable {text : Str} {cs ov : Nat} (h : 5000 + ov ≤ cs) :
    ∀ (k fuel : Nat) (st : Int), 0 ≤ st → (text.length : Int) ≤ st + k →
      k ≤ fuel → chunkRanges fuel text cs ov st = chunkRanges k text cs ov st := by
  intro k
  induction k with
  | zero =>
      intro fuel st h0 hk hf
      have hge : ¬ (st < (text.length : Int)) := by omega
      cases fuel with
      | zero => rfl
      | succ f => simp only [chunkRanges, if_neg hge]
  | succ k ih =>
      intro fuel st h0 hk hf
      obtain ⟨f, rfl⟩ : ∃ f, fuel = f + 1 := ⟨fuel - 1, by omega⟩
      by_cases hlt : st < (text.length : Int)
      · simp only [chunkRanges, if_pos hlt]
        have adv := chunkStep_advance h h0 hlt
        congr 1
        exact (ih f (chunkStep text cs ov st) adv.2 (by omega) (by omega)).trans
          (ih k (chunkStep text cs ov st) adv.2 (by omega) (Nat.le_refl k)).symm
      · simp only [chunkRanges, if_neg hlt]

end Lemmas

/-- Small text with sentence boundaries on which the loop mis-advances
when `chunk_size = 3`, `overlap = 2`. -/
def badParamsText : Str := str (". . . . . ")

/-- `C10` (corrected).  Counterexample to the original claim: with
`chunk_size = 3 > overlap = 2` (the claim's stated precondition holds) and
a ten-character text, the first iteration moves `start` from `0` to `-1`
(backwards, not strictly toward the end), and `-1` is a fixed point of the
iteration while `-1 < len(text)` — so the loop never terminates. -/
theorem c10_nontermination_cex :
    (2 : Nat) < 3 ∧ (0 : Int) < (badParamsText.length : Int) ∧
    chunkStep badParamsText 3 2 0 = -1 ∧
    chunkStep badParamsText 3 2 (-1) = -1 ∧
    (-1 : Int) < (badParamsText.length : Int) := by
  refine ⟨by decide, by decide, by decide, by decide, by decide⟩

/-- `C10` (amended): when additionally `chunk_size ≥ overlap + 5000`
(the defaults 60000/2000 satisfy this), every iteration strictly advances
`start` toward the end of the text, and the loop terminates — the chunk
list is already stable at `len(text)` iterations of fuel. -/
theorem c10_termination (text : Str) (cs ov : Nat) (h : 5000 + ov ≤ cs) :
    (∀ st : Int, 0 ≤ st → st < (text.length : Int) → st < chunkStep text cs ov st) ∧
    (∀ fuel : Nat, text.length ≤ fuel →
      chunkRanges fuel text cs ov 0 = chunkRanges text.length text cs ov 0) := by
  constructor
  · intro st h0 hlt
    have := (Lemmas.chunkStep_advance h h0 hlt).1
    omega
  · intro fuel hf
    exact Lemmas.chunkRanges_stable h text.length fuel 0 (by omega) (by omega) hf

/-- Witness for `C10`'s amended theorem at the default parameters and a
concrete two-character text. -/
theorem c10_termination_witness :
    (0 : Int) < chunkStep (str ("ab")) CHUNK_SIZE CHUNK_OVERLAP 0 ∧
    chunkRanges 5 (str ("ab")) CHUNK_SIZE CHUNK_OVERLAP 0 =
      chunkRanges 2 (str ("ab")) CHUNK_SIZE CHUNK_OVERLAP 0 := by
  have h := c10_termination (str ("ab")) CHUNK_SIZE CHUNK_OVERLAP
    (by norm_num [CHUNK_SIZE, CHUNK_OVERLAP])
  exact ⟨h.1 0 (by norm_num) (by decide), h.2 5 (by decide)⟩

namespace Lemmas

lemma chunkRanges_first_nonneg {text : Str} {cs ov : Nat} (h : 5000 + ov ≤ cs) :
    ∀ (fuel : Nat) (st : Int), 0 ≤ st →
      ∀ r ∈ chunkRanges fuel text cs ov st, 0 ≤ r.1 := by
  intro fuel
  induction fuel with
  | zero =>
      intro st h0 r hr
      simp [chunkRanges] at hr
  | succ fuel ih =>
      intro st h0 r hr
      by_cases hlt : st < (text.length : Int)
      · simp only [chunkRanges, if_pos hlt] at hr
        rcases List.mem_cons.mp hr with hr | hr
        · rw [hr]
          exact h0
        · exact ih (chunkStep text cs ov st) (chunkStep_advance h h0 hlt).2 r hr
      · simp only [chunkRanges, if_neg hlt] at hr
        simp at hr

lemma chunkRanges_cover {text : Str} {cs ov : Nat} (h : 5000 + ov ≤ cs) :
    ∀ (fuel : Nat) (st : Int), 0 ≤ st → (text.length : Int) ≤ st + fuel →
      ∀ p : Nat, st ≤ (p : Int) → p < text.length →
        ∃ r ∈ chunkRanges fuel text cs ov st, r.1 ≤ (p : Int) ∧ (p : Int) < r.2 := by
  intro fuel
  induction fuel with
  | zero =>
      intro st h0 hk p hsp hplen
      omega
  | succ fuel ih =>
      intro st h0 hk p hsp hplen
      have hlt : st < (text.length : Int) := by omega
      simp only [chunkRanges, if_pos hlt]
      by_cases hpe : (p : Int) < chunkEnd text cs st
      · exact ⟨(st, chunkEnd text cs st), List.mem_cons_self _ _, hsp, hpe⟩
      · have adv := chunkStep_advance h h0 hlt
        have hstep_le : chunkStep text cs ov st ≤ (p : Int) := by
          unfold chunkStep at *
          omega
        obtain ⟨r, hr, hr1, hr2⟩ :=
          ih (chunkStep text cs ov st) adv.2 (by omega) p hstep_le hplen
        exact ⟨r, List.mem_cons_of_mem _ hr, hr1, hr2⟩

lemma chunk_text_eq_map (text : Str) (cs ov : Nat) :
    _chunk_text text cs ov =
      (chunkRangesTop text cs ov).map (fun r => pySlice text r.1 r.2) := by
  unfold _chunk_text chunkRangesTop
  by_cases hl : text.length ≤ cs
  · rw [if_pos hl, if_pos hl]
    simp only [List.map_cons, List.map_nil]
    congr 1
    unfold pySlice pyNormIdx
    rw [if_neg (by omega : ¬ ((0 : Int) < 0)),
      if_neg (by omega : ¬ ((text.length : Int) < 0))]
    simp [Int.toNat_ofNat]
  · rw [if_neg hl, if_neg hl]

end Lemmas

/-- `C4` (confirmed): with the default parameters, the chunks of
`_chunk_text` are exactly the slices of the recorded ranges; every range
starts at a non-negative offset; and every character position of the text
is covered by at least one range — the union of chunk ranges is the full
range. -/
theorem c4_chunk_coverage (text : Str) :
    _chunk_text text CHUNK_SIZE CHUNK_OVERLAP =
      (chunkRangesTop text CHUNK_SIZE CHUNK_OVERLAP).map
        (fun r => pySlice text r.1 r.2) ∧
    (∀ r ∈ chunkRangesTop text CHUNK_SIZE CHUNK_OVERLAP, 0 ≤ r.1) ∧
    (∀ p : Nat, p < text.length →
      ∃ r ∈ chunkRangesTop text CHUNK_SIZE CHUNK_OVERLAP,
        r.1 ≤ (p : Int) ∧ (p : Int) < r.2) := by
  have hco : 5000 + CHUNK_OVERLAP ≤ CHUNK_SIZE := by norm_num [CHUNK_SIZE, CHUNK_OVERLAP]
  refine ⟨Lemmas.chunk_text_eq_map text CHUNK_SIZE CHUNK_OVERLAP, ?_, ?_⟩
  · intro r hr
    unfold chunkRangesTop at hr
    by_cases hl : text.length ≤ CHUNK_SIZE
    · rw [if_pos hl] at hr
      simp only [List.mem_singleton] at hr
      rw [hr]
    · rw [if_neg hl] at hr
      exact Lemmas.chunkRanges_first_nonneg hco _ 0 (by omega) r hr
  · intro p hp
    unfold chunkRangesTop
    by_cases hl : text.length ≤ CHUNK_SIZE
    · rw [if_pos hl]
      exact ⟨((0 : Int), (text.length : Int)), List.mem_singleton_self _,
        by omega, by omega⟩
    · rw [if_neg hl]
      exact Lemmas.chunkRanges_cover hco (text.length + 1) 0 (by omega) (by omega)
        p (by omega) hp

/-- Witness for `C4` at a concrete text and position. -/
theorem c4_chunk_coverage_witness :
    ∃ r ∈ chunkRangesTop (str ("ab")) CHUNK_SIZE CHUNK_OVERLAP,
      r.1 ≤ (1 : Int) ∧ (1 : Int) < r.2 :=
  (c4_chunk_coverage (str ("ab"))).2.2 1 (by decide)

/-- Does a chunk end in sentence punctuation with nothing trailing? -/
def endsPunct (l : Str) : Bool :=
  match l.getLast? with
  | some c => c = '.' || c = '?' || c = '!'
  | none => false

namespace Lemmas

lemma chunkRanges_succ (fuel : Nat) (text : Str) (cs ov : Nat) (st : Int) :
    chunkRanges (fuel + 1) text cs ov st =
      if st < (text.length : Int) then
        (st, chunkEnd text cs st) ::
          chunkRanges fuel text cs ov (chunkStep text cs ov st)
      else [] := rfl

lemma pyNormIdx_le (i : Int) (n : Nat) : pyNormIdx i n ≤ n := by
  unfold pyNormIdx
  by_cases hi : i < 0
  · rw [if_pos hi]
    omega
  · rw [if_neg hi]
    exact Nat.min_le_right _ _

lemma pyNormIdx_ge {i : Int} {n : Nat} {s : Int} (h0 : 0 ≤ s) (hi : s ≤ i)
    (hn : s < (n : Int)) : s ≤ (pyNormIdx i n : Int) := by
  unfold pyNormIdx
  rw [if_neg (by omega : ¬ (i < 0))]
  have h1 : s.toNat ≤ i.toNat := by omega
  have h2 : s.toNat ≤ n := by omega
  have h3 : s.toNat ≤ min i.toNat n := Nat.le_min.mpr ⟨h1, h2⟩
  omega

lemma matchesAt_head {text sub : Str} {p : Char} {tail : Str} {m : Nat}
    (hsub : sub = p :: tail) (h : matchesAt text sub m = true) :
    text[m]? = some p := by
  subst hsub
  unfold matchesAt at h
  rw [decide_eq_true_eq] at h
  rcases hd : text.drop m with _ | ⟨a, tl⟩
  · rw [hd] at h
    simp at h
  · rw [hd] at h
    simp only [List.length_cons, List.take_succ_cons, List.cons.injEq] at h
    have h0 : (text.drop m)[0]? = some a := by
      rw [hd]
      simp
    have hdrop := List.getElem?_drop text m 0
    rw [h0] at hdrop
    rw [← h.1]
    simpa using hdrop.symm

lemma pySlice_getLast (text : Str) {s : Int} {m : Nat} (h0 : 0 ≤ s)
    (hsm : s ≤ (m : Int)) (hm : m < text.length) :
    (pySlice text s ((m : Int) + 1)).getLast? = text[m]? := by
  unfold pySlice pyNormIdx
  rw [if_neg (by omega : ¬ ((m : Int) + 1 < 0)), if_neg (by omega : ¬ (s < 0))]
  have hb : ((m : Int) + 1).toNat = m + 1 := by omega
  rw [hb, Nat.min_eq_left (by omega : m + 1 ≤ text.length),
    Nat.min_eq_left (by omega : s.toNat ≤ text.length)]
  rw [List.getLast?_eq_getElem?]
  have hlen : ((text.take (m + 1)).drop s.toNat).length = m + 1 - s.toNat := by
    rw [List.length_drop, List.length_take, Nat.min_eq_left (by omega)]
  rw [hlen, List.getElem?_drop]
  have hidx : s.toNat + (m + 1 - s.toNat - 1) = m := by omega
  rw [hidx]
  exact List.getElem?_take_of_lt (by omega)

lemma chunkRanges_boundary {text : Str} {cs ov : Nat} (h : 5000 + ov ≤ cs) :
    ∀ (fuel : Nat) (st : Int), 0 ≤ st →
      ∀ r ∈ chunkRanges fuel text cs ov st,
        endsPunct (pySlice text r.1 r.2) = true ∨
        (text.length : Int) ≤ r.2 ∨
        (r.2 = r.1 + cs ∧
          pyRfind text (str (". ")) (r.1 + cs - 5000) (r.1 + cs) = -1 ∧
          pyRfind text (str ("? ")) (r.1 + cs - 5000) (r.1 + cs) = -1 ∧
          pyRfind text (str ("! ")) (r.1 + cs - 5000) (r.1 + cs) = -1) := by
  intro fuel
  induction fuel with
  | zero =>
      intro st h0 r hr
      simp [chunkRanges] at hr
  | succ fuel ih =>
      intro st h0 r hr
      by_cases hlt : st < (text.length : Int)
      · rw [chunkRanges_succ, if_pos hlt] at hr
        rcases List.mem_cons.mp hr with hr | hr
        · subst hr
          dsimp only
          rcases chunkEnd_cases text cs st with ⟨he, hcase⟩ | ⟨m, he, hend, hma, hmb, hmm⟩
          · rcases hcase with hcase | hcase
            · exact Or.inr (Or.inl (by omega))
            · exact Or.inr (Or.inr ⟨he, hcase.1, hcase.2.1, hcase.2.2⟩)
          · refine Or.inl ?_
            have hmlt : m < text.length := by
              have := pyNormIdx_le (st + cs) text.length
              omega
            have hstm : st ≤ (m : Int) := by
              have hge := pyNormIdx_ge (i := st + cs - 5000) (n := text.length)
                h0 (by omega) (by omega)
              omega
            have hlast := pySlice_getLast text h0 hstm hmlt
            rw [he]
            rcases hmm with hp | hp | hp
            · have hc := matchesAt_head (show str (". ") = '.' :: [' '] from rfl) hp
              unfold endsPunct
              rw [hlast, hc]
              rfl
            · have hc := matchesAt_head (show str ("? ") = '?' :: [' '] from rfl) hp
              unfold endsPunct
              rw [hlast, hc]
              rfl
            · have hc := matchesAt_head (show str ("! ") = '!' :: [' '] from rfl) hp
              unfold endsPunct
              rw [hlast, hc]
              rfl
        · exact ih (chunkStep text cs ov st) (chunkStep_advance h h0 hlt).2 r hr
      · rw [chunkRanges_succ, if_neg hlt] at hr
        simp at hr

end Lemmas

/-- `C9` (amended): with the default parameters, every chunk either ends
with `'.'`, `'?'` or `'!'`, or was cut at the raw `chunk_size` edge —
which happens exactly when the window reaches past the end of the text
(this covers the final chunk and the short-circuit case) or when no
`". "`, `"? "` or `"! "` occurs in the last 5000 characters of the
window.  "Sentences shorter than chunk_size" does not prevent the raw-cut
case, so the original claim's guarantee fails (see the counterexample). -/
theorem c9_boundary_preference (text : Str) :
    ∀ r ∈ chunkRangesTop text CHUNK_SIZE CHUNK_OVERLAP,
      endsPunct (pySlice text r.1 r.2) = true ∨
      (text.length : Int) ≤ r.2 ∨
      (r.2 = r.1 + CHUNK_SIZE ∧
        pyRfind text (str (". ")) (r.1 + CHUNK_SIZE - 5000) (r.1 + CHUNK_SIZE) = -1 ∧
        pyRfind text (str ("? ")) (r.1 + CHUNK_SIZE - 5000) (r.1 + CHUNK_SIZE) = -1 ∧
        pyRfind text (str ("! ")) (r.1 + CHUNK_SIZE - 5000) (r.1 + CHUNK_SIZE) = -1) := by
  intro r hr
  unfold chunkRangesTop at hr
  by_cases hl : text.length ≤ CHUNK_SIZE
  · rw [if_pos hl] at hr
    simp only [List.mem_singleton] at hr
    subst hr
    exact Or.inr (Or.inl (by simp))
  · rw [if_neg hl] at hr
    exact Lemmas.chunkRanges_boundary (by norm_num [CHUNK_SIZE, CHUNK_OVERLAP])
      _ 0 (by omega) r hr

/-- Witness for `C9`'s amended theorem at a concrete short text (its one
chunk runs to the end of the text). -/
theorem c9_boundary_preference_witness :
    endsPunct (pySlice (str ("ab")) 0 ((str ("ab")).length : Int)) = true ∨
    ((str ("ab")).length : Int) ≤ ((str ("ab")).length : Int) ∨
    (((str ("ab")).length : Int) = 0 + CHUNK_SIZE ∧
      pyRfind (str ("ab")) (str (". "))
        ((0 : Int) + CHUNK_SIZE - 5000) ((0 : Int) + CHUNK_SIZE) = -1 ∧
      pyRfind (str ("ab")) (str ("? "))
        ((0 : Int) + CHUNK_SIZE - 5000) ((0 : Int) + CHUNK_SIZE) = -1 ∧
      pyRfind (str ("ab")) (str ("! "))
        ((0 : Int) + CHUNK_SIZE - 5000) ((0 : Int) + CHUNK_SIZE) = -1) :=
  c9_boundary_preference (str ("ab")) ((0 : Int), ((str ("ab")).length : Int))
    (by decide)

/-- First sentence of the `C9` counterexample text: 54000 `'a'`s then
`". "` — 54002 characters, shorter than the default chunk size. -/
def c9Sent1 : Str := List.replicate 54000 'a' ++ str (". ")

/-- Second sentence: 10000 `'b'`s then `". "` — 10002 characters. -/
def c9Sent2 : Str := List.replicate 10000 'b' ++ str (". ")

/-- The counterexample text: two sentences, 64004 characters in all.  Its
only `". "` occurrences are at positions 54000 and 64002, so the first
window's 5000-character lookback `[55000, 60000)` contains no sentence
boundary. -/
def c9Text : Str := c9Sent1 ++ c9Sent2

namespace Lemmas

lemma c9Sent1_length : c9Sent1.length = 54002 := by
  unfold c9Sent1
  rw [List.length_append, List.length_replicate]
  rfl

lemma c9Sent2_length : c9Sent2.length = 10002 := by
  unfold c9Sent2
  rw [List.length_append, List.length_replicate]
  rfl

lemma c9Text_length : c9Text.length = 64004 := by
  unfold c9Text
  rw [List.length_append, c9Sent1_length, c9Sent2_length]

lemma c9Text_getElem_b {k : Nat} (h1 : 54002 ≤ k) (h2 : k ≤ 59999) :
    c9Text[k]? = some 'b' := by
  have hl1 : c9Sent1.length = 54002 := c9Sent1_length
  unfold c9Text
  rw [List.getElem?_append_right (by omega : c9Sent1.length ≤ k), hl1]
  unfold c9Sent2
  rw [List.getElem?_append_left (by rw [List.length_replicate]; omega)]
  rw [List.getElem?_replicate_of_lt (by omega)]

lemma c9Text_matchesAt_false {p : Char} {tail : Str} (hp : p ≠ 'b') {k : Nat}
    (h1 : 54002 ≤ k) (h2 : k ≤ 59999) :
    matchesAt c9Text (p :: tail) k = false := by
  by_contra hcon
  rw [Bool.not_eq_false] at hcon
  have hc := matchesAt_head rfl hcon
  rw [c9Text_getElem_b h1 h2] at hc
  simp only [Option.some.injEq] at hc
  exact hp hc.symm

lemma c9Text_rfind_none {p q : Char} (hp : p ≠ 'b') :
    pyRfind c9Text [p, q] 55000 60000 = -1 := by
  unfold pyRfind
  rw [c9Text_length]
  have ha : pyNormIdx 55000 64004 = 55000 := rfl
  have hb : pyNormIdx 60000 64004 = 60000 := rfl
  rw [ha, hb]
  rw [if_pos (by simp : [p, q].length ≤ 60000)]
  have hnone : rfindDown c9Text [p, q] 55000 (60000 - [p, q].length) = none := by
    refine rfindDown_eq_none (fun j hj hjk => ?_)
    have hlen2 : [p, q].length = 2 := rfl
    exact c9Text_matchesAt_false hp (by omega) (by omega)
  rw [hnone]

lemma c9_chunkEnd_0 : chunkEnd c9Text 60000 0 = 60000 := by
  rcases chunkEnd_cases c9Text 60000 0 with ⟨he, _⟩ | ⟨m, he, hend, hma, hmb, hmm⟩
  · rw [he]
    norm_num
  · exfalso
    have hnla : pyNormIdx (0 + ((60000 : Nat) : Int) - 5000) c9Text.length = 55000 := by
      rw [c9Text_length]
      rfl
    have hnlb : pyNormIdx (0 + ((60000 : Nat) : Int)) c9Text.length = 60000 := by
      rw [c9Text_length]
      rfl
    rw [hnla] at hma
    rw [hnlb] at hmb
    rcases hmm with hp | hp | hp
    · rw [show str (". ") = '.' :: [' '] from rfl] at hp
      rw [c9Text_matchesAt_false (by decide) (by omega) (by omega)] at hp
      simp at hp
    · rw [show str ("? ") = '?' :: [' '] from rfl] at hp
      rw [c9Text_matchesAt_false (by decide) (by omega) (by omega)] at hp
      simp at hp
    · rw [show str ("! ") = '!' :: [' '] from rfl] at hp
      rw [c9Text_matchesAt_false (by decide) (by omega) (by omega)] at hp
      simp at hp

lemma c9_chunkEnd_58000 : chunkEnd c9Text 60000 58000 = 118000 := by
  rcases chunkEnd_cases c9Text 60000 58000 with ⟨he, _⟩ | ⟨m, he, hend, _, _, _⟩
  · rw [he]
    norm_num
  · exfalso
    rw [c9Text_length] at hend
    omega

lemma c9_ranges : chunkRanges 64005 c9Text 60000 2000 0 =
    [(0, 60000), (58000, 118000)] := by
  have hstep1 : chunkStep c9Text 60000 2000 0 = 58000 := by
    unfold chunkStep
    rw [c9_chunkEnd_0]
    norm_num
  have hstep2 : chunkStep c9Text 60000 2000 58000 = 116000 := by
    unfold chunkStep
    rw [c9_chunkEnd_58000]
    norm_num
  rw [show (64005 : Nat) = 64004 + 1 from rfl, chunkRanges_succ,
    if_pos (by rw [c9Text_length]; norm_num : (0 : Int) < (c9Text.length : Int)),
    c9_chunkEnd_0, hstep1]
  rw [show (64004 : Nat) = 64003 + 1 from rfl, chunkRanges_succ,
    if_pos (by rw [c9Text_length]; norm_num : (58000 : Int) < (c9Text.length : Int)),
    c9_chunkEnd_58000, hstep2]
  rw [show (64003 : Nat) = 64002 + 1 from rfl, chunkRanges_succ,
    if_neg (by rw [c9Text_length]; norm_num : ¬ ((116000 : Int) < (c9Text.length : Int)))]

lemma c9_chunks : _chunk_text c9Text 60000 2000 =
    [pySlice c9Text 0 60000, pySlice c9Text 58000 118000] := by
  unfold _chunk_text
  rw [if_neg (by rw [c9Text_length]; norm_num : ¬ (c9Text.length ≤ 60000))]
  have hf : c9Text.length + 1 = 64005 := by
    rw [c9Text_length]
  rw [hf, c9_ranges]
  rfl

lemma endsPunct_eq {l : Str} {c : Char} (h : l.getLast? = some c) :
    endsPunct l = (c = '.' || c = '?' || c = '!') := by
  unfold endsPunct
  rw [h]

lemma c9_first_chunk_last : (pySlice c9Text 0 60000).getLast? = some 'b' := by
  have h := pySlice_getLast c9Text (s := 0) (m := 59999) (by norm_num)
    (by norm_num) (by rw [c9Text_length]; norm_num)
  have he : (((59999 : Nat) : Int) + 1) = (60000 : Int) := by norm_num
  rw [he] at h
  rw [h]
  exact c9Text_getElem_b (by norm_num) (by norm_num)

end Lemmas

/-- `C9` (corrected).  Counterexample to the original claim: `c9Text` is
composed of two sentences, each (54002 and 10002 characters) shorter than
the default `chunk_size` of 60000, yet the first of the two produced
chunks ends in `'b'` — not `'.'`, `'?'` or `'!'` — because no sentence
boundary falls inside the 5000-character lookback window `[55000, 60000)`
of the first chunk. -/
theorem c9_boundary_cex :
    c9Text = c9Sent1 ++ c9Sent2 ∧
    c9Sent1.length < CHUNK_SIZE ∧ c9Sent2.length < CHUNK_SIZE ∧
    pyEndsWith c9Sent1 (str (". ")) = true ∧
    pyEndsWith c9Sent2 (str (". ")) = true ∧
    CHUNK_SIZE = 60000 ∧ CHUNK_OVERLAP = 2000 ∧
    (_chunk_text c9Text 60000 2000).length = 2 ∧
    ((_chunk_text c9Text 60000 2000).headD []).getLast? = some 'b' ∧
    endsPunct ((_chunk_text c9Text 60000 2000).headD []) = false := by
  have hchunks := Lemmas.c9_chunks
  have hlast := Lemmas.c9_first_chunk_last
  refine ⟨rfl, ?_, ?_, ?_, ?_, rfl, rfl, ?_, ?_, ?_⟩
  · rw [Lemmas.c9Sent1_length]
    decide
  · rw [Lemmas.c9Sent2_length]
    decide
  · have hdrop : c9Sent1.drop 54000 = ['.', ' '] := by
      unfold c9Sent1
      exact List.drop_left' (by rw [List.length_replicate])
    have hlen : c9Sent1.length = 54002 := Lemmas.c9Sent1_length
    unfold pyEndsWith matchesAt
    rw [show (str (". ")).length = 2 from rfl, hlen]
    rw [show (54002 : Nat) - 2 = 54000 from rfl, hdrop]
    rfl
  · have hdrop : c9Sent2.drop 10000 = ['.', ' '] := by
      unfold c9Sent2
      exact List.drop_left' (by rw [List.length_replicate])
    have hlen : c9Sent2.length = 10002 := Lemmas.c9Sent2_length
    unfold pyEndsWith matchesAt
    rw [show (str (". ")).length = 2 from rfl, hlen]
    rw [show (10002 : Nat) - 2 = 10000 from rfl, hdrop]
    rfl
  · rw [hchunks]
    rfl
  · rw [hchunks, List.headD_cons]
    exact hlast
  · rw [hchunks, List.headD_cons, Lemmas.endsPunct_eq hlast]
    rfl

/-- The per-chunk results of an always-valid client whose `i`-th decoded
response is `okR i`: calls `m, m+1, …, m+n-1` in order. -/
def resultsFor (okR : Nat → EnrichmentResult) (m n : Nat) : List EnrichmentResult :=
  (List.range n).map (fun j => okR (m + j))

namespace Lemmas

lemma call_llm_ok (client : ModelClient) (okR : Nat → EnrichmentResult)
    (h : ∀ i, ∃ raw, client i = .ok raw ∧ decodeResp raw = .ok (okR i))
    (st : LlmState) :
    _call_llm client st =
      (.ok (okR st.modelCalls), { st with modelCalls := st.modelCalls + 1 }) := by
  unfold _call_llm
  obtain ⟨raw, hc, hd⟩ := h st.modelCalls
  rw [show MAX_RETRIES + 1 = 2 + 1 from rfl, callAttempts_succ]
  simp only [hc, hd]

lemma resultsFor_cons (okR : Nat → EnrichmentResult) (m n : Nat) :
    okR m :: resultsFor okR (m + 1) n = resultsFor okR m (n + 1) := by
  unfold resultsFor
  rw [List.range_succ_eq_map]
  simp only [List.map_cons, Nat.add_zero, List.map_map]
  congr 1
  apply List.map_congr_left
  intro j hj
  simp only [Function.comp_apply]
  congr 1
  omega

lemma extractChunks_ok (client : ModelClient) (okR : Nat → EnrichmentResult)
    (h : ∀ i, ∃ raw, client i = .ok raw ∧ decodeResp raw = .ok (okR i)) :
    ∀ (chunks : List Str) (st : LlmState),
      extractChunks client chunks st =
        (.ok (resultsFor okR st.modelCalls chunks.length),
         ⟨st.modelCalls + chunks.length,
          st.invocations ++ chunks.map LlmCall.extractCall⟩) := by
  intro chunks
  induction chunks with
  | nil =>
      intro st
      simp only [extractChunks, resultsFor, List.length_nil, List.range_zero,
        List.map_nil, Nat.add_zero, List.append_nil]
  | cons c cs ih =>
      intro st
      have h1 : _enrich_single client c st =
          (.ok (okR st.modelCalls),
           ⟨st.modelCalls + 1, st.invocations ++ [.extractCall c]⟩) := by
        unfold _enrich_single
        rw [call_llm_ok client okR h]
      have h2 := ih (⟨st.modelCalls + 1, st.invocations ++ [.extractCall c]⟩ : LlmState)
      show (match _enrich_single client c st with
        | (Except.ok r, st') =>
            (match extractChunks client cs st' with
             | (Except.ok rs, st'') => (Except.ok (r :: rs), st'')
             | (Except.error e, st'') => (Except.error e, st''))
        | (Except.error e, st') => (Except.error e, st')) = _
      rw [h1]
      dsimp only
      rw [h2]
      dsimp only
      simp only [List.length_cons, List.map_cons]
      rw [resultsFor_cons]
      simp only [Prod.mk.injEq, LlmState.mk.injEq, true_and]
      exact ⟨by omega, by rw [List.append_assoc]; rfl⟩

end Lemmas

/-- `C3` (confirmed): against an always-valid model client, when the
loaded transcript yields exactly one chunk, `enrich_transcript` performs
exactly one extractor invocation on that chunk (one model call) and
returns its result directly, with no merge invocation; when it yields
`N ≥ 2` chunks, it performs one extractor invocation per chunk, in chunk
order, then exactly one merger invocation over the full ordered list of
the per-chunk results (`N + 1` model calls in total), and returns the
merger's output. -/
theorem c3_orchestration (client : ModelClient) (okR : Nat → EnrichmentResult)
    (h : ∀ i, ∃ raw, client i = .ok raw ∧ decodeResp raw = .ok (okR i))
    (data : Json) (chunks : List Str)
    (hch : chunks = _chunk_text (loadTranscriptText data) CHUNK_SIZE CHUNK_OVERLAP) :
    (chunks.length = 1 →
      enrich_transcript client data initState =
        (.ok (okR 0), ⟨1, [.extractCall (chunks.headD [])]⟩)) ∧
    (2 ≤ chunks.length →
      enrich_transcript client data initState =
        (.ok (okR chunks.length),
         ⟨chunks.length + 1,
          chunks.map LlmCall.extractCall ++
            [.mergeCall (resultsFor okR 0 chunks.length)]⟩)) := by
  constructor
  · intro h1
    simp only [enrich_transcript]
    rw [← hch, if_pos h1]
    unfold _enrich_single
    rw [Lemmas.call_llm_ok client okR h]
    rfl
  · intro h2
    simp only [enrich_transcript]
    rw [← hch, if_neg (by omega)]
    rw [Lemmas.extractChunks_ok client okR h chunks initState]
    show _merge_results client (resultsFor okR initState.modelCalls chunks.length)
      ⟨initState.modelCalls + chunks.length,
       initState.invocations ++ chunks.map LlmCall.extractCall⟩ = _
    unfold _merge_results
    rw [Lemmas.call_llm_ok client okR h]
    show (Except.ok (okR (0 + chunks.length)),
      (⟨0 + chunks.length + 1,
        ([] ++ chunks.map LlmCall.extractCall) ++
          [LlmCall.mergeCall (resultsFor okR 0 chunks.length)]⟩ : LlmState)) = _
    rw [Nat.zero_add, List.nil_append]

/-- Witness for `C3` at a concrete one-chunk transcript and stub client. -/
theorem c3_orchestration_witness :
    enrich_transcript (fun _ => .ok ['{', '}'])
      (Json.obj [(str ("text"), Json.str (str ("hi")))]) initState =
      (.ok {}, ⟨1, [.extractCall (str ("hi"))]⟩) := by
  have h := (c3_orchestration (fun _ => .ok ['{', '}']) (fun _ => {})
    (fun i => ⟨['{', '}'], rfl, rfl⟩)
    (Json.obj [(str ("text"), Json.str (str ("hi")))])
    (_chunk_text (loadTranscriptText
      (Json.obj [(str ("text"), Json.str (str ("hi")))])) CHUNK_SIZE CHUNK_OVERLAP)
    rfl).1 (by rfl)
  exact h
